import Mathlib

/-!
Shallow embedding of the sqew queue engine (simplified profile):
the SQLite-backed store operations of `src/db/mod.rs` and the
service-level operations of `src/queue.rs`.

The database state is modelled as two relations (lists of rows).
SQL statements are translated row-by-row:
* `WHERE` clauses become `List.filter` with the same predicate;
* `ORDER BY available_at, id` becomes sorting by the lexicographic key;
* `LIMIT ?` follows SQLite semantics: a negative bound means no limit;
* scalar subselects `(SELECT id FROM queue WHERE name = ?)` become
  `List.find?` (first matching row, `NULL`/`none` matches no message);
* `INTEGER PRIMARY KEY` rowid assignment becomes max-existing-id + 1;
* `rows_affected` becomes the count of rows matched by the statement;
* `ON DELETE CASCADE` (declared in `INIT_SQL`, enforced because sqlx
  enables `foreign_keys` by default) removes the messages of a deleted
  queue in the same transaction.
The wall-clock `now` sampled inside a transaction is passed explicitly.
-/

/-- A row of the `queue` table (`INIT_SQL`, `src/db/mod.rs`). -/
structure Queue where
  id : Int
  name : String
  max_attempts : Int
  deriving Repr, DecidableEq

/-- A row of the `message` table (`INIT_SQL`, `src/db/mod.rs`). -/
structure Message where
  id : Int
  queue_id : Int
  payload : String
  attempts : Int
  available_at : Int
  created_at : Int
  deriving Repr, DecidableEq

/-- The persistent store: the two relations of `INIT_SQL`. -/
structure DB where
  queues : List Queue
  messages : List Message
  deriving Repr, DecidableEq

/-- SQLite rowid assignment for `INTEGER PRIMARY KEY`:
the new row gets one more than the largest rowid in use. -/
def newRowId (ids : List Int) : Int :=
  ids.foldr max 0 + 1

/-- SQLite `LIMIT ?` semantics: a negative limit imposes no bound. -/
def sqlLimit (n : Int) (xs : List α) : List α :=
  if n < 0 then xs else xs.take n.toNat

/-- The `ORDER BY m.available_at, m.id` key used by peek and poll. -/
def msgLE (a b : Message) : Prop :=
  a.available_at < b.available_at ∨
    (a.available_at = b.available_at ∧ a.id ≤ b.id)

instance : DecidableRel msgLE := fun a b => by
  unfold msgLE
  infer_instance

instance : IsTotal Message msgLE :=
  ⟨by
    intro a b
    unfold msgLE
    omega⟩

instance : IsTrans Message msgLE :=
  ⟨by
    intro a b c hab hbc
    unfold msgLE at *
    omega⟩

/-- `SELECT id, name, max_attempts FROM queue WHERE name = ?` with
`fetch_optional` (`get_queue_by_name`, src/db/mod.rs:27). -/
def get_queue_by_name (db : DB) (name : String) : Option Queue :=
  db.queues.find? (fun q => q.name == name)

/-- `m.queue_id = (SELECT id FROM queue WHERE name = ?)`: when the
subselect yields no row the comparison with `NULL` matches nothing. -/
def inQueueNamed (db : DB) (qname : String) (m : Message) : Bool :=
  match get_queue_by_name db qname with
  | some q => m.queue_id == q.id
  | none => false

/-- Scalar lookup of a queue row by id (the `JOIN queue q ON q.id =
m.queue_id` of `nack_messages`). -/
def findQueueById (db : DB) (qid : Int) : Option Queue :=
  db.queues.find? (fun q => q.id == qid)

/-- The messages of the named queue, in table order. -/
def queueMessages (db : DB) (qname : String) : List Message :=
  db.messages.filter (fun m => inQueueNamed db qname m)

/-- The ready messages (`available_at <= now`) of the named queue. -/
def readyMessages (db : DB) (qname : String) (now : Int) : List Message :=
  db.messages.filter
    (fun m => inQueueNamed db qname m && decide (m.available_at ≤ now))

/-- The candidate rows of `poll_messages` (src/db/mod.rs:167): ready
messages of the queue, `ORDER BY m.available_at, m.id LIMIT ?`. -/
def pollCandidates (db : DB) (qname : String) (now limit : Int) :
    List Message :=
  sqlLimit limit (List.insertionSort msgLE (readyMessages db qname now))

/-- `ack_messages` (src/db/mod.rs:82): early-return 0 on an empty id
list, else `DELETE FROM message WHERE id IN (ids)`, returning
`rows_affected`. -/
def ack_messages (db : DB) (ids : List Int) : Nat × DB :=
  if ids.isEmpty then (0, db)
  else
    (db.messages.countP (fun m => ids.contains m.id),
     { db with messages :=
        db.messages.filter (fun m => !(ids.contains m.id)) })

/-- `delete_queue_by_name` (src/db/mod.rs:109): `DELETE FROM queue
WHERE name = ?`, returning `rows_affected`; `ON DELETE CASCADE`
removes the messages of every deleted queue. -/
def delete_queue_by_name (db : DB) (name : String) : Nat × DB :=
  let removed := db.queues.filter (fun q => q.name == name)
  (removed.length,
   { queues := db.queues.filter (fun q => !(q.name == name)),
     messages := db.messages.filter
       (fun m => !(removed.any (fun q => q.id == m.queue_id))) })

/-- `purge_messages_by_queue` (src/db/mod.rs:122): `DELETE FROM message
WHERE queue_id = (SELECT id FROM queue WHERE name = ?)`. -/
def purge_messages_by_queue (db : DB) (qname : String) : Nat × DB :=
  match get_queue_by_name db qname with
  | none => (0, db)
  | some q =>
    (db.messages.countP (fun m => m.queue_id == q.id),
     { db with messages :=
        db.messages.filter (fun m => !(m.queue_id == q.id)) })

/-- `peek_messages` (src/db/mod.rs:136): a single `SELECT ... ORDER BY
available_at, id LIMIT ?`; no write statement is issued, so the store
is returned unchanged. -/
def peek_messages (db : DB) (qname : String) (limit : Int) :
    List Message × DB :=
  (sqlLimit limit (List.insertionSort msgLE (queueMessages db qname)), db)

/-- The row effect of poll's `UPDATE message SET available_at = ?
WHERE id IN (ids)`. -/
def pollUpd (ids : List Int) (newAvail : Int) (m : Message) : Message :=
  if ids.contains m.id then { m with available_at := newAvail } else m

/-- `poll_messages` (src/db/mod.rs:156): inside one transaction, select
the ready candidates, early-return on none, else
`UPDATE message SET available_at = now + max(visibility_ms, 0)` on the
candidate ids and re-select those rows `ORDER BY available_at, id`. -/
def poll_messages (db : DB) (qname : String) (now limit visibility_ms : Int) :
    List Message × DB :=
  let ids := (pollCandidates db qname now limit).map Message.id
  if ids.isEmpty then ([], db)
  else
    let msgs := db.messages.map (pollUpd ids (now + max visibility_ms 0))
    (List.insertionSort msgLE (msgs.filter (fun m => ids.contains m.id)),
     { db with messages := msgs })

/-- The post-increment drop test of `nack_messages`: the `DELETE` joins
`queue` and removes the ids whose updated `attempts` reached the
queue's `max_attempts`. -/
def nackDropCond (db : DB) (ids : List Int) (m : Message) : Bool :=
  ids.contains m.id &&
    (match findQueueById db m.queue_id with
     | some q => decide (q.max_attempts ≤ m.attempts)
     | none => false)

/-- The row effect of nack's `UPDATE message SET attempts = attempts +
1, available_at = ? WHERE id IN (ids)`. -/
def nackUpd (ids : List Int) (newAvail : Int) (m : Message) : Message :=
  if ids.contains m.id then
    { m with attempts := m.attempts + 1, available_at := newAvail }
  else m

/-- `nack_messages` (src/db/mod.rs:310): early-return (0,0) on an empty
id list; else `UPDATE message SET attempts = attempts + 1, available_at
= now + max(delay_ms, 0) WHERE id IN (ids)` (affecting `updated` rows),
then delete the updated rows whose attempts reached their queue's
`max_attempts` (affecting `dropped` rows); return
`(updated.saturating_sub(dropped), dropped)`. -/
def nack_messages (db : DB) (ids : List Int) (now delay_ms : Int) :
    (Nat × Nat) × DB :=
  if ids.isEmpty then ((0, 0), db)
  else
    let updated := db.messages.countP (fun m => ids.contains m.id)
    let msgs1 := db.messages.map (nackUpd ids (now + max delay_ms 0))
    let dropped := msgs1.countP (nackDropCond db ids)
    ((updated - dropped, dropped),
     { db with messages := msgs1.filter (fun m => !(nackDropCond db ids m)) })

/-- `remove_message_by_id` (src/db/mod.rs:360): `DELETE FROM message
WHERE id = ?`, returning `rows_affected`. -/
def remove_message_by_id (db : DB) (id : Int) : Nat × DB :=
  (db.messages.countP (fun m => m.id == id),
   { db with messages := db.messages.filter (fun m => !(m.id == id)) })

/-- The classified engine errors of `src/queue.rs` (anyhow messages). -/
inductive EngineError where
  | alreadyExists (name : String)
  | notFound (name : String)
  deriving Repr, DecidableEq

/-- Service-level `create_queue` (src/queue.rs:126): error if
`get_queue_by_name` finds the name, else insert the row (the only
validation performed) and return the re-fetched queue. -/
def create_queue (db : DB) (name : String) (max_attempts : Int) :
    Except EngineError (Queue × DB) :=
  match get_queue_by_name db name with
  | some _ => .error (.alreadyExists name)
  | none =>
    let q : Queue :=
      { id := newRowId (db.queues.map Queue.id),
        name := name, max_attempts := max_attempts }
    .ok (q, { db with queues := db.queues ++ [q] })

/-- Service-level `delete_queue` (src/queue.rs:145): true iff
`delete_queue_by_name` affected a row. -/
def delete_queue (db : DB) (name : String) : Bool × DB :=
  let r := delete_queue_by_name db name
  (decide (0 < r.1), r.2)

/-- Service-level `enqueue_message` (src/queue.rs:228): resolve the
queue by name (`NotFound` if absent), then insert a message with
`attempts = 0`, `available_at = now + max(delay_ms, 0)`,
`created_at = now`, and return the created row. -/
def enqueue_message (db : DB) (qname : String) (payload : String)
    (now delay_ms : Int) : Except EngineError (Message × DB) :=
  match get_queue_by_name db qname with
  | none => .error (.notFound qname)
  | some q =>
    let m : Message :=
      { id := newRowId (db.messages.map Message.id),
        queue_id := q.id, payload := payload, attempts := 0,
        available_at := now + max delay_ms 0, created_at := now }
    .ok (m, { db with messages := db.messages ++ [m] })

/-- One engine operation (the state-changing calls of `src/queue.rs`),
with the sampled wall clock as explicit data. -/
inductive Op where
  | createQ (name : String) (max_attempts : Int)
  | deleteQ (name : String)
  | enqueue (qname payload : String) (now delay_ms : Int)
  | poll (qname : String) (now limit visibility_ms : Int)
  | ack (ids : List Int)
  | nack (ids : List Int) (now delay_ms : Int)
  | peek (qname : String) (limit : Int)
  | purge (qname : String)
  | removeMsg (id : Int)
  deriving Repr, DecidableEq

/-- The state transition of one engine operation (a failed operation
leaves the store unchanged). -/
def applyOp (db : DB) : Op → DB
  | .createQ n ma =>
    match create_queue db n ma with
    | .ok r => r.2
    | .error _ => db
  | .deleteQ n => (delete_queue db n).2
  | .enqueue qn p now d =>
    match enqueue_message db qn p now d with
    | .ok r => r.2
    | .error _ => db
  | .poll qn now l v => (poll_messages db qn now l v).2
  | .ack ids => (ack_messages db ids).2
  | .nack ids now d => (nack_messages db ids now d).2
  | .peek qn l => (peek_messages db qn l).2
  | .purge qn => (purge_messages_by_queue db qn).2
  | .removeMsg i => (remove_message_by_id db i).2

/-- The empty store produced by `INIT_SQL` on a fresh file. -/
def db0 : DB := { queues := [], messages := [] }

/-- The store after a sequence of engine operations from a fresh file. -/
def runOps (ops : List Op) : DB :=
  ops.foldl applyOp db0

/-- Referential integrity (spec §3 invariant 2): every message's
`queue_id` references an existing queue. -/
def RefInt (db : DB) : Prop :=
  ∀ m ∈ db.messages, ∃ q ∈ db.queues, q.id = m.queue_id

/-- The `queue` table's primary keys are distinct. -/
def QueueIdsNodup (db : DB) : Prop :=
  (db.queues.map Queue.id).Nodup

/-- The `message` table's primary keys are distinct. -/
def MsgIdsNodup (db : DB) : Prop :=
  (db.messages.map Message.id).Nodup

/-- Every queue row has a non-negative `max_attempts`. -/
def NonNegMaxAttempts (db : DB) : Prop :=
  ∀ q ∈ db.queues, 0 ≤ q.max_attempts

/-- Spec §3 invariant 3: `attempts ≥ 0` and `attempts` at most the
owning queue's `max_attempts`. -/
def AttemptsInv (db : DB) : Prop :=
  ∀ m ∈ db.messages, 0 ≤ m.attempts ∧
    ∀ q ∈ db.queues, q.id = m.queue_id → m.attempts ≤ q.max_attempts

instance : DecidablePred AttemptsInv := fun db => by
  unfold AttemptsInv
  infer_instance

/-- The joint inductive invariant of the engine state. -/
def EngineInv (db : DB) : Prop :=
  QueueIdsNodup db ∧ MsgIdsNodup db ∧ RefInt db ∧
    NonNegMaxAttempts db ∧ AttemptsInv db

/-- Operations whose parameters respect the spec's precondition
`max_attempts ≥ 1` is weakened here to non-negativity, the least
restriction that keeps the attempts invariant. -/
def goodOp : Op → Prop
  | .createQ _ ma => 0 ≤ ma
  | _ => True

instance : DecidablePred goodOp := fun op => by
  cases op <;> unfold goodOp <;> infer_instance

instance : DecidablePred MsgIdsNodup := fun db => by
  unfold MsgIdsNodup
  infer_instance

instance : DecidablePred QueueIdsNodup := fun db => by
  unfold QueueIdsNodup
  infer_instance

instance : DecidablePred RefInt := fun db => by
  unfold RefInt
  infer_instance

instance : DecidablePred NonNegMaxAttempts := fun db => by
  unfold NonNegMaxAttempts
  infer_instance

instance : DecidablePred EngineInv := fun db => by
  unfold EngineInv
  infer_instance

/-- The store for the C1 counterexample and witness: one queue `q`
holding a single ready message. -/
def dbC1 : DB :=
  { queues := [⟨1, "q", 5⟩], messages := [⟨1, 1, "p", 0, 0, 0⟩] }

/-- The store for the C2 witness: queue `q` with `max_attempts = 2`
holding one message already at `attempts = 1` (the second nack drops
it, as in the repository's `nack_and_drop_on_max_attempts` test). -/
def dbC2 : DB :=
  { queues := [⟨1, "q", 2⟩], messages := [⟨1, 1, "p", 1, 0, 0⟩] }

/-- The store for the C4 counterexample and witness: message 2 became
ready (available_at 5) before message 1 (available_at 10). -/
def dbC4 : DB :=
  { queues := [⟨1, "q", 5⟩],
    messages := [⟨1, 1, "a", 0, 10, 0⟩, ⟨2, 1, "b", 0, 5, 0⟩] }

/-- The store for the C8 witness: queues `a` and `b`, each with one
message referencing it. -/
def dbC8 : DB :=
  { queues := [⟨1, "a", 5⟩, ⟨2, "b", 5⟩],
    messages := [⟨1, 1, "p", 0, 0, 0⟩, ⟨2, 2, "r", 0, 0, 0⟩] }

theorem le_foldr_max (x : Int) (l : List Int) (hx : x ∈ l) :
    x ≤ l.foldr max 0 := by
  induction l with
  | nil => cases hx
  | cons a l ih =>
    rcases List.mem_cons.mp hx with h | h
    · subst h; exact le_max_left _ _
    · exact le_trans (ih h) (le_max_right _ _)

theorem newRowId_not_mem (l : List Int) : newRowId l ∉ l := by
  intro h
  have := le_foldr_max _ l h
  unfold newRowId at this
  omega

theorem pollUpd_id (ids : List Int) (v : Int) (m : Message) :
    (pollUpd ids v m).id = m.id := by
  unfold pollUpd; split <;> rfl

theorem pollUpd_queue_id (ids : List Int) (v : Int) (m : Message) :
    (pollUpd ids v m).queue_id = m.queue_id := by
  unfold pollUpd; split <;> rfl

theorem pollUpd_attempts (ids : List Int) (v : Int) (m : Message) :
    (pollUpd ids v m).attempts = m.attempts := by
  unfold pollUpd; split <;> rfl

theorem nackUpd_id (ids : List Int) (v : Int) (m : Message) :
    (nackUpd ids v m).id = m.id := by
  unfold nackUpd; split <;> rfl

theorem nackUpd_queue_id (ids : List Int) (v : Int) (m : Message) :
    (nackUpd ids v m).queue_id = m.queue_id := by
  unfold nackUpd; split <;> rfl

theorem sqlLimit_nil (n : Int) : sqlLimit n ([] : List α) = [] := by
  unfold sqlLimit; split <;> simp

theorem sqlLimit_sublist (n : Int) (xs : List α) : (sqlLimit n xs).Sublist xs := by
  unfold sqlLimit
  split
  · exact List.Sublist.refl xs
  · exact List.take_sublist _ _

theorem mem_sqlLimit (n : Int) (xs : List α) (a : α) (h : a ∈ sqlLimit n xs) :
    a ∈ xs :=
  (sqlLimit_sublist n xs).mem h

theorem get_queue_by_name_eq_none (db : DB) (name : String)
    (h : ∀ q ∈ db.queues, q.name ≠ name) :
    get_queue_by_name db name = none := by
  unfold get_queue_by_name
  exact List.find?_eq_none.mpr (fun q hq => by simpa using h q hq)

theorem ack_messages_eq (db : DB) (ids : List Int) :
    ack_messages db ids =
      (db.messages.countP (fun m => ids.contains m.id),
       { db with messages :=
          db.messages.filter (fun m => !(ids.contains m.id)) }) := by
  unfold ack_messages
  by_cases h : ids.isEmpty
  · rcases List.isEmpty_iff.mp h with rfl
    simp
  · simp [h]

/-- C7: `ack(ids)` deletes exactly the messages whose ids are in `ids`
and returns the number of rows removed; queues are untouched; a second
ack of the same ids removes nothing and leaves the state unchanged
(idempotent ensure-absent), and `ack([])` is a no-op returning 0. -/
theorem ack_contract (db : DB) (ids : List Int) :
    (ack_messages db ids).1 =
      db.messages.countP (fun m => ids.contains m.id) ∧
    (ack_messages db ids).2.messages =
      db.messages.filter (fun m => !(ids.contains m.id)) ∧
    (ack_messages db ids).2.queues = db.queues ∧
    ack_messages (ack_messages db ids).2 ids = (0, (ack_messages db ids).2) ∧
    ack_messages db [] = (0, db) := by
  refine ⟨by rw [ack_messages_eq], by rw [ack_messages_eq],
          by rw [ack_messages_eq], ?_, by unfold ack_messages; simp⟩
  rw [ack_messages_eq, ack_messages_eq]
  simp only [List.filter_filter, List.countP_filter, Bool.and_not_self,
    List.countP_false, Bool.and_self]
  rfl

/-- C9: `peek(queue_name, limit)` performs no mutation (the store
component of the result is the input store, every queue and message
row unchanged) and its rows are read in the same `(available_at, id)`
order poll uses for selection. -/
theorem peek_frame (db : DB) (qname : String) (limit : Int) :
    (peek_messages db qname limit).2 = db ∧
    (peek_messages db qname limit).1 =
      sqlLimit limit (List.insertionSort msgLE (queueMessages db qname)) ∧
    (peek_messages db qname limit).1.Sorted msgLE := by
  refine ⟨rfl, rfl, ?_⟩
  have hs := List.sorted_insertionSort msgLE (queueMessages db qname)
  exact List.Pairwise.sublist
    (sqlLimit_sublist limit (List.insertionSort msgLE (queueMessages db qname)))
    hs

/-- C10: when no queue bears the given name, poll and peek return the
empty list and purge returns 0 — none of them errors, each resolving
the name through a subselect matching no rows — while enqueue fails
with a NotFound error. -/
theorem absent_queue_no_error (db : DB) (name : String)
    (h : ∀ q ∈ db.queues, q.name ≠ name)
    (now limit vis delay : Int) (payload : String) :
    poll_messages db name now limit vis = ([], db) ∧
    peek_messages db name limit = ([], db) ∧
    purge_messages_by_queue db name = (0, db) ∧
    enqueue_message db name payload now delay =
      .error (.notFound name) := by
  have hn := get_queue_by_name_eq_none db name h
  have hq : queueMessages db name = [] := by
    unfold queueMessages
    rw [List.filter_eq_nil_iff]
    intro m _
    unfold inQueueNamed
    rw [hn]
    simp
  have hr : readyMessages db name now = [] := by
    unfold readyMessages
    rw [List.filter_eq_nil_iff]
    intro m _
    unfold inQueueNamed
    rw [hn]
    simp
  refine ⟨?_, ?_, ?_, ?_⟩
  · unfold poll_messages pollCandidates
    rw [hr]
    simp [sqlLimit_nil, List.insertionSort]
  · unfold peek_messages
    rw [hq]
    simp [sqlLimit_nil, List.insertionSort]
  · unfold purge_messages_by_queue
    rw [hn]
  · unfold enqueue_message
    rw [hn]

/-- C10 witness: a store holding only a queue named `a` has no queue
named `b`; the no-error behavior follows at that input. -/
theorem absent_queue_no_error_witness :
    poll_messages ⟨[⟨1, "a", 5⟩], []⟩ "b" 10 1 100 =
        ([], ⟨[⟨1, "a", 5⟩], []⟩) ∧
      peek_messages ⟨[⟨1, "a", 5⟩], []⟩ "b" 1 = ([], ⟨[⟨1, "a", 5⟩], []⟩) ∧
      purge_messages_by_queue ⟨[⟨1, "a", 5⟩], []⟩ "b" =
        (0, ⟨[⟨1, "a", 5⟩], []⟩) ∧
      enqueue_message ⟨[⟨1, "a", 5⟩], []⟩ "b" "p" 10 0 =
        .error (.notFound "b") :=
  absent_queue_no_error ⟨[⟨1, "a", 5⟩], []⟩ "b" (by decide) 10 1 100 0 "p"

/-- C5 counterexample: `create_queue` performs no validation of its
inputs — with an empty name and `max_attempts = 0` (both of which the
claim says must fail with an Invalid error) it succeeds and inserts
the queue row. -/
theorem create_queue_accepts_invalid :
    create_queue db0 "" 0 =
      .ok (⟨1, "", 0⟩, { queues := [⟨1, "", 0⟩], messages := [] }) := rfl

/-- C5 (amended): `create_queue(name, max_attempts)` fails (with an
AlreadyExists error, leaving the store unchanged) exactly when a queue
named `name` exists; otherwise it succeeds for every `max_attempts`
and every name — including the empty name and `max_attempts < 1`,
which are not validated — appending the one new queue row. -/
theorem create_queue_contract (db : DB) (name : String) (ma : Int) :
    ((∃ q ∈ db.queues, q.name = name) →
      create_queue db name ma = .error (.alreadyExists name)) ∧
    ((∀ q ∈ db.queues, q.name ≠ name) →
      ∃ qn : Queue, qn.name = name ∧ qn.max_attempts = ma ∧
        create_queue db name ma =
          .ok (qn, { db with queues := db.queues ++ [qn] })) := by
  constructor
  · rintro ⟨q, hq, hname⟩
    have hsome : (get_queue_by_name db name).isSome := by
      unfold get_queue_by_name
      rw [List.find?_isSome]
      exact ⟨q, hq, by simpa using hname⟩
    unfold create_queue
    rcases Option.isSome_iff_exists.mp hsome with ⟨q', hq'⟩
    rw [hq']
  · intro h
    have hn := get_queue_by_name_eq_none db name h
    refine ⟨⟨newRowId (db.queues.map Queue.id), name, ma⟩, rfl, rfl, ?_⟩
    unfold create_queue
    rw [hn]

/-- C5 amended-claim witness: creating `q` on the empty store succeeds
and appends exactly one row named `q` with the requested limit. -/
theorem create_queue_contract_witness :
    ∃ qn : Queue, qn.name = "q" ∧ qn.max_attempts = 5 ∧
      create_queue db0 "q" 5 =
        .ok (qn, { db0 with queues := db0.queues ++ [qn] }) :=
  (create_queue_contract db0 "q" 5).2 (by simp [db0])

theorem contains_int_iff (l : List Int) (x : Int) :
    l.contains x = true ↔ x ∈ l :=
  List.elem_iff

theorem map_id_pollUpd (ids : List Int) (v : Int) (l : List Message) :
    (l.map (pollUpd ids v)).map Message.id = l.map Message.id := by
  rw [List.map_map]
  exact List.map_congr_left (fun m _ => pollUpd_id ids v m)

theorem map_id_nackUpd (ids : List Int) (v : Int) (l : List Message) :
    (l.map (nackUpd ids v)).map Message.id = l.map Message.id := by
  rw [List.map_map]
  exact List.map_congr_left (fun m _ => nackUpd_id ids v m)

theorem pollUpd_mem_avail (ids : List Int) (v : Int) (l : List Message)
    (m : Message) (hm : m ∈ l.map (pollUpd ids v)) (hid : m.id ∈ ids) :
    m.available_at = v := by
  rcases List.mem_map.mp hm with ⟨m₀, _, rfl⟩
  rw [pollUpd_id] at hid
  unfold pollUpd
  rw [if_pos (contains_int_iff ids m₀.id |>.mpr hid)]

/-- The unfolding of `poll_messages` with its let bindings resolved. -/
theorem poll_messages_eq (db : DB) (qname : String) (now limit vis : Int) :
    poll_messages db qname now limit vis =
      if ((pollCandidates db qname now limit).map Message.id).isEmpty then
        ([], db)
      else
        (List.insertionSort msgLE
          ((db.messages.map (pollUpd
              ((pollCandidates db qname now limit).map Message.id)
              (now + max vis 0))).filter
            (fun m =>
              ((pollCandidates db qname now limit).map Message.id).contains
                m.id)),
         { db with messages := db.messages.map (pollUpd
            ((pollCandidates db qname now limit).map Message.id)
            (now + max vis 0)) }) := rfl

theorem mem_candidate_ids (db : DB) (qname : String) (now limit : Int)
    (x : Int) (hx : x ∈ (pollCandidates db qname now limit).map Message.id) :
    ∃ c ∈ db.messages, c.id = x ∧ c.available_at ≤ now := by
  rcases List.mem_map.mp hx with ⟨c, hc, rfl⟩
  have hc' : c ∈ readyMessages db qname now :=
    (List.mem_insertionSort msgLE).mp (mem_sqlLimit _ _ _ hc)
  rcases List.mem_filter.mp hc' with ⟨hcm, hcond⟩
  simp only [Bool.and_eq_true, decide_eq_true_eq] at hcond
  exact ⟨c, hcm, rfl, hcond.2⟩

/-- C1 (amended): for every poll with a non-negative batch on a store
with distinct message ids, at most `batch` messages are returned; every
returned message was ready (`available_at ≤ now`) in the pre-poll
store; every returned message's stored `available_at` equals
`now + max(0, visibility_ms)`, both in the returned snapshot and in the
post-poll store, so it is not ready again before that deadline. (A
negative batch is excluded: SQLite's `LIMIT` treats it as unbounded.) -/
theorem poll_contract (db : DB) (qname : String) (now batch vis : Int)
    (hb : 0 ≤ batch) (hnd : MsgIdsNodup db) :
    ((poll_messages db qname now batch vis).1.length : Int) ≤ batch ∧
    (∀ m ∈ (poll_messages db qname now batch vis).1,
      (∃ m₀ ∈ db.messages, m₀.id = m.id ∧ m₀.available_at ≤ now) ∧
      m.available_at = now + max vis 0) ∧
    (∀ m' ∈ (poll_messages db qname now batch vis).2.messages,
      m'.id ∈ (poll_messages db qname now batch vis).1.map Message.id →
        m'.available_at = now + max vis 0 ∧
        ∀ t : Int, t < now + max vis 0 → ¬ m'.available_at ≤ t) := by
  rw [poll_messages_eq]
  by_cases hempty :
      ((pollCandidates db qname now batch).map Message.id).isEmpty
  · rw [if_pos hempty]
    exact ⟨by simpa using hb, by simp, by simp⟩
  · rw [if_neg hempty]
    refine ⟨?_, ?_, ?_⟩
    · rw [(List.perm_insertionSort msgLE _).length_eq]
      have hFsub :
          (((db.messages.map (pollUpd
              ((pollCandidates db qname now batch).map Message.id)
              (now + max vis 0))).filter
            (fun m =>
              ((pollCandidates db qname now batch).map Message.id).contains
                m.id)).map Message.id) ⊆
            (pollCandidates db qname now batch).map Message.id := by
        intro x hx
        rcases List.mem_map.mp hx with ⟨m, hmF, rfl⟩
        exact (contains_int_iff _ m.id).mp (List.mem_filter.mp hmF).2
      have hFnd :
          (((db.messages.map (pollUpd
              ((pollCandidates db qname now batch).map Message.id)
              (now + max vis 0))).filter
            (fun m =>
              ((pollCandidates db qname now batch).map Message.id).contains
                m.id)).map Message.id).Nodup := by
        have h2 := (List.filter_sublist (l :=
          db.messages.map (pollUpd
            ((pollCandidates db qname now batch).map Message.id)
            (now + max vis 0)))
          (p := fun m =>
            ((pollCandidates db qname now batch).map Message.id).contains
              m.id)).map Message.id
        rw [map_id_pollUpd] at h2
        exact List.Nodup.sublist h2 hnd
      have hlen1 := (List.subperm_of_subset hFnd hFsub).length_le
      rw [List.length_map] at hlen1
      have hlen2 :
          ((pollCandidates db qname now batch).map Message.id).length ≤
            batch.toNat := by
        rw [List.length_map]
        unfold pollCandidates sqlLimit
        rw [if_neg (by omega : ¬ batch < 0)]
        rw [List.length_take]
        omega
      have hcast : (batch.toNat : Int) = batch := Int.toNat_of_nonneg hb
      omega
    · intro m hm
      have hmF := (List.mem_insertionSort msgLE).mp hm
      rcases List.mem_filter.mp hmF with ⟨hmmsgs, hcont⟩
      have hidm := (contains_int_iff _ m.id).mp hcont
      refine ⟨?_, pollUpd_mem_avail _ _ db.messages m hmmsgs hidm⟩
      exact mem_candidate_ids db qname now batch m.id hidm
    · intro m' hm' hid
      rcases List.mem_map.mp hid with ⟨m, hmret, hmid⟩
      have hmF := (List.mem_insertionSort msgLE).mp hmret
      have hcont := (List.mem_filter.mp hmF).2
      have hidm := (contains_int_iff _ m.id).mp hcont
      rw [hmid] at hidm
      have hav := pollUpd_mem_avail _ _ db.messages m' hm' hidm
      exact ⟨hav, fun t ht hle => by omega⟩

/-- C1 counterexample: at batch = -1 the claim's bound "the returned
list has at most batch messages" fails — SQLite's `LIMIT -1` imposes
no bound, so poll returns 1 message and `1 ≤ -1` is false. -/
theorem poll_negative_batch_unbounded :
    (poll_messages dbC1 "q" 10 (-1) 100).1.length = 1 ∧
      ¬ (((poll_messages dbC1 "q" 10 (-1) 100).1.length : Int) ≤ -1) := by
  decide

/-- C1 amended-claim witness: the contract instantiated on `dbC1` with
batch 1, visibility 100 at time 10. -/
theorem poll_contract_witness :
    ((poll_messages dbC1 "q" 10 1 100).1.length : Int) ≤ 1 ∧
    (∀ m ∈ (poll_messages dbC1 "q" 10 1 100).1,
      (∃ m₀ ∈ dbC1.messages, m₀.id = m.id ∧ m₀.available_at ≤ 10) ∧
      m.available_at = 10 + max 100 0) ∧
    (∀ m' ∈ (poll_messages dbC1 "q" 10 1 100).2.messages,
      m'.id ∈ (poll_messages dbC1 "q" 10 1 100).1.map Message.id →
        m'.available_at = 10 + max 100 0 ∧
        ∀ t : Int, t < 10 + max 100 0 → ¬ m'.available_at ≤ t) :=
  poll_contract dbC1 "q" 10 1 100 (by decide) (by decide)

theorem pollCandidates_minimal (db : DB) (qname : String) (now batch : Int)
    (c : Message) (hc : c ∈ pollCandidates db qname now batch)
    (y : Message) (hy : y ∈ readyMessages db qname now)
    (hyn : y ∉ pollCandidates db qname now batch) : msgLE c y := by
  unfold pollCandidates sqlLimit at hc hyn
  by_cases hneg : batch < 0
  · rw [if_pos hneg] at hyn
    exact absurd ((List.mem_insertionSort msgLE).mpr hy) hyn
  · rw [if_neg hneg] at hc hyn
    have hsorted := List.sorted_insertionSort msgLE (readyMessages db qname now)
    have hsplit := List.take_append_drop batch.toNat
      (List.insertionSort msgLE (readyMessages db qname now))
    have hpw : (List.take batch.toNat
        (List.insertionSort msgLE (readyMessages db qname now)) ++
        List.drop batch.toNat
        (List.insertionSort msgLE (readyMessages db qname now))).Pairwise
        msgLE := by
      rw [hsplit]
      exact hsorted
    have h3 := (List.pairwise_append.mp hpw).2.2
    have hymem : y ∈ List.insertionSort msgLE (readyMessages db qname now) :=
      (List.mem_insertionSort msgLE).mpr hy
    rw [← hsplit] at hymem
    rcases List.mem_append.mp hymem with h | h
    · exact absurd h hyn
    · exact h3 c hc y h

theorem candidate_ids_nodup (db : DB) (qname : String) (now batch : Int)
    (hnd : MsgIdsNodup db) :
    ((pollCandidates db qname now batch).map Message.id).Nodup := by
  have h1 : (readyMessages db qname now).Sublist db.messages :=
    List.filter_sublist _
  have h2 : ((readyMessages db qname now).map Message.id).Nodup :=
    List.Nodup.sublist (h1.map Message.id) hnd
  have h3 : ((List.insertionSort msgLE
      (readyMessages db qname now)).map Message.id).Nodup :=
    (((List.perm_insertionSort msgLE
      (readyMessages db qname now)).map Message.id).nodup_iff).mpr h2
  exact List.Nodup.sublist ((sqlLimit_sublist batch _).map Message.id) h3

theorem poll_filter_ids_mem (db : DB) (ids : List Int) (v : Int) (x : Int)
    (hsub : ∀ i ∈ ids, ∃ c ∈ db.messages, c.id = i) :
    (x ∈ ((db.messages.map (pollUpd ids v)).filter
        (fun m => ids.contains m.id)).map Message.id) ↔ x ∈ ids := by
  constructor
  · intro hx
    rcases List.mem_map.mp hx with ⟨m, hmF, rfl⟩
    exact (contains_int_iff _ m.id).mp (List.mem_filter.mp hmF).2
  · intro hx
    rcases hsub x hx with ⟨c, hcm, rfl⟩
    refine List.mem_map.mpr ⟨pollUpd ids v c, ?_, pollUpd_id ids v c⟩
    refine List.mem_filter.mpr ⟨List.mem_map.mpr ⟨c, hcm, rfl⟩, ?_⟩
    rw [pollUpd_id]
    exact (contains_int_iff _ c.id).mpr hx

theorem poll_returned_ids_perm (db : DB) (qname : String)
    (now batch vis : Int) (hnd : MsgIdsNodup db) :
    ((poll_messages db qname now batch vis).1.map Message.id).Perm
      ((pollCandidates db qname now batch).map Message.id) := by
  rw [poll_messages_eq]
  by_cases hempty :
      ((pollCandidates db qname now batch).map Message.id).isEmpty
  · rw [if_pos hempty]
    rw [List.isEmpty_iff] at hempty
    rw [hempty]
    rfl
  · rw [if_neg hempty]
    have hp1 := (List.perm_insertionSort msgLE
      ((db.messages.map (pollUpd
          ((pollCandidates db qname now batch).map Message.id)
          (now + max vis 0))).filter
        (fun m =>
          ((pollCandidates db qname now batch).map Message.id).contains
            m.id))).map Message.id
    refine hp1.trans ?_
    have hFnd :
        ((((db.messages.map (pollUpd
            ((pollCandidates db qname now batch).map Message.id)
            (now + max vis 0))).filter
          (fun m =>
            ((pollCandidates db qname now batch).map Message.id).contains
              m.id))).map Message.id).Nodup := by
      have h2 := (List.filter_sublist (l :=
        db.messages.map (pollUpd
          ((pollCandidates db qname now batch).map Message.id)
          (now + max vis 0)))
        (p := fun m =>
          ((pollCandidates db qname now batch).map Message.id).contains
            m.id)).map Message.id
      rw [map_id_pollUpd] at h2
      exact List.Nodup.sublist h2 hnd
    refine (List.perm_ext_iff_of_nodup hFnd
      (candidate_ids_nodup db qname now batch hnd)).mpr ?_
    intro x
    exact poll_filter_ids_mem db
      ((pollCandidates db qname now batch).map Message.id)
      (now + max vis 0) x
      (fun i hi => by
        rcases mem_candidate_ids db qname now batch i hi with ⟨c, hc, hcid, _⟩
        exact ⟨c, hc, hcid⟩)

theorem poll_returned_sorted_by_id (db : DB) (qname : String)
    (now batch vis : Int) :
    (poll_messages db qname now batch vis).1.Pairwise
      (fun a b => a.id ≤ b.id) := by
  rw [poll_messages_eq]
  by_cases hempty :
      ((pollCandidates db qname now batch).map Message.id).isEmpty
  · rw [if_pos hempty]
    exact List.Pairwise.nil
  · rw [if_neg hempty]
    have hsorted := List.sorted_insertionSort msgLE
      ((db.messages.map (pollUpd
          ((pollCandidates db qname now batch).map Message.id)
          (now + max vis 0))).filter
        (fun m =>
          ((pollCandidates db qname now batch).map Message.id).contains
            m.id))
    refine List.Pairwise.imp_of_mem ?_ hsorted
    intro a b ha hb hab
    have hmema := (List.mem_insertionSort msgLE).mp ha
    have hmemb := (List.mem_insertionSort msgLE).mp hb
    have hida := (contains_int_iff _ a.id).mp (List.mem_filter.mp hmema).2
    have hidb := (contains_int_iff _ b.id).mp (List.mem_filter.mp hmemb).2
    have hava := pollUpd_mem_avail _ _ db.messages a
      (List.mem_filter.mp hmema).1 hida
    have havb := pollUpd_mem_avail _ _ db.messages b
      (List.mem_filter.mp hmemb).1 hidb
    unfold msgLE at hab
    omega

/-- C4 counterexample: in `dbC4`, message 2 has the strictly smaller
`available_at` (5 versus 10), yet poll at now = 10 returns id 1 before
id 2 — the final `SELECT` re-orders by the already-updated
`available_at`, which is now equal for every returned row, so the
claimed ascending-original-`available_at` order [2, 1] does not hold. -/
theorem poll_not_fifo_by_availability :
    (poll_messages dbC4 "q" 10 2 100).1.map Message.id = [1, 2] ∧
      (dbC4.messages.find? (fun m => m.id == 2)).map Message.available_at =
        some 5 ∧
      (dbC4.messages.find? (fun m => m.id == 1)).map Message.available_at =
        some 10 := by
  decide

/-- C4 (amended): poll selects its candidate set in strict
FIFO-by-availability order — every selected candidate is least under
(available_at ascending, id ascending) among the ready messages, and
the returned ids are exactly the candidate ids — but the returned list
itself is ordered by ascending id, because the final SELECT orders by
the post-update `available_at` (equal across the batch) and id. -/
theorem poll_order_contract (db : DB) (qname : String)
    (now batch vis : Int) (hnd : MsgIdsNodup db) :
    (∀ c ∈ pollCandidates db qname now batch,
      ∀ y ∈ readyMessages db qname now,
        y ∉ pollCandidates db qname now batch → msgLE c y) ∧
    ((poll_messages db qname now batch vis).1.map Message.id).Perm
      ((pollCandidates db qname now batch).map Message.id) ∧
    (poll_messages db qname now batch vis).1.Pairwise
      (fun a b => a.id ≤ b.id) :=
  ⟨fun c hc y hy hyn => pollCandidates_minimal db qname now batch c hc y hy hyn,
   poll_returned_ids_perm db qname now batch vis hnd,
   poll_returned_sorted_by_id db qname now batch vis⟩

/-- C4 amended-claim witness: the ordering contract instantiated on
`dbC4` at now = 10 with batch 2. -/
theorem poll_order_contract_witness :
    ((poll_messages dbC4 "q" 10 2 100).1.map Message.id).Perm
      ((pollCandidates dbC4 "q" 10 2).map Message.id) :=
  (poll_order_contract dbC4 "q" 10 2 100 (by decide)).2.1

theorem countP_congr_list (p q : α → Bool) (l : List α)
    (h : ∀ a ∈ l, p a = q a) : l.countP p = l.countP q := by
  induction l with
  | nil => rfl
  | cons a l ih =>
    rw [List.countP_cons, List.countP_cons, h a (List.mem_cons_self a l),
      ih (fun x hx => h x (List.mem_cons_of_mem a hx))]

theorem nackDropCond_upd (db : DB) (ids : List Int) (v : Int) (m : Message) :
    nackDropCond db ids (nackUpd ids v m) =
      (ids.contains m.id &&
        (match findQueueById db m.queue_id with
         | some q => decide (q.max_attempts ≤ m.attempts + 1)
         | none => false)) := by
  unfold nackUpd
  by_cases h : ids.contains m.id = true
  · rw [if_pos h]
    rfl
  · rw [if_neg h]
    rw [Bool.not_eq_true] at h
    unfold nackDropCond
    rw [h]
    simp

/-- The unfolding of `nack_messages` with its let bindings resolved. -/
theorem nack_messages_eq (db : DB) (ids : List Int) (now delay : Int) :
    nack_messages db ids now delay =
      if ids.isEmpty then ((0, 0), db)
      else
        ((db.messages.countP (fun m => ids.contains m.id) -
            (db.messages.map (nackUpd ids (now + max delay 0))).countP
              (nackDropCond db ids),
          (db.messages.map (nackUpd ids (now + max delay 0))).countP
            (nackDropCond db ids)),
         { db with
            messages := (db.messages.map
              (nackUpd ids (now + max delay 0))).filter
                (fun m => !(nackDropCond db ids m)) }) := rfl

theorem findQueueById_eq (db : DB) (q : Queue) (hqnd : QueueIdsNodup db)
    (hq : q ∈ db.queues) : findQueueById db q.id = some q := by
  unfold findQueueById
  have hsome : (db.queues.find? (fun x => x.id == q.id)).isSome := by
    rw [List.find?_isSome]
    exact ⟨q, hq, by simp⟩
  rcases Option.isSome_iff_exists.mp hsome with ⟨q', hq'⟩
  have hq'mem := List.mem_of_find?_eq_some hq'
  have hq'id : q'.id = q.id := by simpa using List.find?_some hq'
  have heq : q' = q := List.inj_on_of_nodup_map hqnd hq'mem hq hq'id
  rw [hq', heq]

/-- C2: a non-empty nack first increments `attempts` and sets
`available_at = now + max(0, delay_ms)` on every existing message in
`ids` (U rows), then deletes those whose post-increment `attempts`
reached their queue's `max_attempts` (D rows, per the join with
`queue`), returning `(U − D, D)`; in particular, a message pushed to
`attempts ≥ max_attempts` by the nack no longer exists afterwards. -/
theorem nack_contract (db : DB) (ids : List Int) (now delay : Int)
    (hne : ids ≠ [])
    (hqnd : QueueIdsNodup db) (hmnd : MsgIdsNodup db) :
    (nack_messages db ids now delay).1.2 =
      db.messages.countP (fun m => ids.contains m.id &&
        (match findQueueById db m.queue_id with
         | some q => decide (q.max_attempts ≤ m.attempts + 1)
         | none => false)) ∧
    (nack_messages db ids now delay).1.1 =
      db.messages.countP (fun m => ids.contains m.id) -
        (nack_messages db ids now delay).1.2 ∧
    (∀ m' ∈ (nack_messages db ids now delay).2.messages,
      m'.id ∈ ids →
        ∃ m₀ ∈ db.messages, m₀.id = m'.id ∧
          m'.attempts = m₀.attempts + 1 ∧
          m'.available_at = now + max delay 0) ∧
    (∀ m₀ ∈ db.messages, m₀.id ∈ ids →
      ∀ q ∈ db.queues, q.id = m₀.queue_id →
        q.max_attempts ≤ m₀.attempts + 1 →
        ∀ m' ∈ (nack_messages db ids now delay).2.messages,
          m'.id ≠ m₀.id) := by
  have hemp : ids.isEmpty = false := by
    cases ids with
    | nil => exact absurd rfl hne
    | cons a l => rfl
  rw [nack_messages_eq, if_neg (by simp [hemp])]
  refine ⟨?_, ?_, ?_, ?_⟩
  · rw [List.countP_map]
    exact countP_congr_list _ _ db.messages
      (fun m _ => nackDropCond_upd db ids (now + max delay 0) m)
  · rfl
  · intro m' hm' hid
    rcases List.mem_map.mp (List.mem_filter.mp hm').1 with ⟨m₀, hm₀, rfl⟩
    rw [nackUpd_id] at hid
    have hc := (contains_int_iff ids m₀.id).mpr hid
    refine ⟨m₀, hm₀, (nackUpd_id _ _ m₀).symm, ?_, ?_⟩
    · unfold nackUpd
      rw [if_pos hc]
    · unfold nackUpd
      rw [if_pos hc]
  · intro m₀ hm₀ hid q hq hqid hge m' hm' heq
    have hdrop := (List.mem_filter.mp hm').2
    rcases List.mem_map.mp (List.mem_filter.mp hm').1 with ⟨m₁, hm₁, rfl⟩
    rw [nackUpd_id] at heq
    obtain rfl : m₁ = m₀ := List.inj_on_of_nodup_map hmnd hm₁ hm₀ heq
    rw [nackDropCond_upd] at hdrop
    have hfind : findQueueById db m₁.queue_id = some q := by
      have h := findQueueById_eq db q hqnd hq
      rw [hqid] at h
      exact h
    rw [hfind] at hdrop
    have hc := (contains_int_iff ids m₁.id).mpr hid
    rw [hc] at hdrop
    simp only [Bool.true_and, Bool.not_eq_true', decide_eq_false_iff_not] at hdrop
    exact hdrop hge

/-- C2 witness: the nack contract instantiated on `dbC2` (ids `[1]`,
now 10, delay 5), where the single message's post-increment attempts
reach the queue's limit. -/
theorem nack_contract_witness :
    (nack_messages dbC2 [1] 10 5).1.2 =
      dbC2.messages.countP (fun m => [(1 : Int)].contains m.id &&
        (match findQueueById dbC2 m.queue_id with
         | some q => decide (q.max_attempts ≤ m.attempts + 1)
         | none => false)) :=
  (nack_contract dbC2 [1] 10 5 (by decide) (by decide) (by decide)).1

theorem get_queue_by_name_mem (db : DB) (name : String) (q : Queue)
    (h : get_queue_by_name db name = some q) :
    q ∈ db.queues ∧ q.name = name := by
  unfold get_queue_by_name at h
  exact ⟨List.mem_of_find?_eq_some h, by simpa using List.find?_some h⟩

theorem RefInt_of_msgs (db : DB) (msgs : List Message)
    (h : ∀ m ∈ msgs, ∃ m₀ ∈ db.messages, m₀.queue_id = m.queue_id)
    (hri : RefInt db) : RefInt { db with messages := msgs } := by
  intro m hm
  rcases h m hm with ⟨m₀, hm₀, hqid⟩
  rcases hri m₀ hm₀ with ⟨q, hq, hqi⟩
  exact ⟨q, hq, by rw [hqi, hqid]⟩

theorem refint_applyOp (db : DB) (op : Op) (hri : RefInt db) :
    RefInt (applyOp db op) := by
  cases op with
  | createQ n ma =>
    show RefInt (match create_queue db n ma with
      | .ok r => r.2
      | .error _ => db)
    unfold create_queue
    cases hfind : get_queue_by_name db n with
    | some q => exact hri
    | none =>
      intro m hm
      rcases hri m hm with ⟨q, hq, hid⟩
      exact ⟨q, List.mem_append_left _ hq, hid⟩
  | deleteQ n =>
    intro m hm
    have hm' := List.mem_of_mem_filter hm
    have hcond := (List.mem_filter.mp hm).2
    rcases hri m hm' with ⟨q, hq, hid⟩
    refine ⟨q, List.mem_filter.mpr ⟨hq, ?_⟩, hid⟩
    simp only [Bool.not_eq_true', beq_eq_false_iff_ne, ne_eq]
    intro hqn
    rw [Bool.not_eq_true', List.any_eq_false] at hcond
    have hqrem : q ∈ db.queues.filter (fun q => q.name == n) :=
      List.mem_filter.mpr ⟨hq, by simp [hqn]⟩
    have := hcond q hqrem
    simp [hid] at this
  | enqueue qn p now d =>
    show RefInt (match enqueue_message db qn p now d with
      | .ok r => r.2
      | .error _ => db)
    unfold enqueue_message
    cases hfind : get_queue_by_name db qn with
    | none => exact hri
    | some q =>
      intro m hm
      rcases List.mem_append.mp hm with h | h
      · exact hri m h
      · rcases List.mem_singleton.mp h with rfl
        exact ⟨q, (get_queue_by_name_mem db qn q hfind).1, rfl⟩
  | poll qn now l v =>
    show RefInt (poll_messages db qn now l v).2
    rw [poll_messages_eq]
    split
    · exact hri
    · refine RefInt_of_msgs db _ ?_ hri
      intro m hm
      rcases List.mem_map.mp hm with ⟨m₀, hm₀, rfl⟩
      exact ⟨m₀, hm₀, (pollUpd_queue_id _ _ m₀).symm⟩
  | ack ids =>
    show RefInt (ack_messages db ids).2
    rw [ack_messages_eq]
    refine RefInt_of_msgs db _ ?_ hri
    intro m hm
    exact ⟨m, List.mem_of_mem_filter hm, rfl⟩
  | nack ids now d =>
    show RefInt (nack_messages db ids now d).2
    rw [nack_messages_eq]
    split
    · exact hri
    · refine RefInt_of_msgs db _ ?_ hri
      intro m hm
      rcases List.mem_map.mp (List.mem_of_mem_filter hm) with ⟨m₀, hm₀, rfl⟩
      exact ⟨m₀, hm₀, (nackUpd_queue_id _ _ m₀).symm⟩
  | peek qn l => exact hri
  | purge qn =>
    show RefInt (purge_messages_by_queue db qn).2
    unfold purge_messages_by_queue
    cases hfind : get_queue_by_name db qn with
    | none => exact hri
    | some q =>
      refine RefInt_of_msgs db _ ?_ hri
      intro m hm
      exact ⟨m, List.mem_of_mem_filter hm, rfl⟩
  | removeMsg i =>
    refine RefInt_of_msgs db _ ?_ hri
    intro m hm
    exact ⟨m, List.mem_of_mem_filter hm, rfl⟩

/-- C8: `delete_queue(name)` returns true iff a queue row named `name`
was removed; the same transaction removes exactly the messages whose
`queue_id` referenced a removed queue (the declared cascade), so no
surviving message references a queue named `name`; and every engine
operation preserves referential integrity — each remaining message's
`queue_id` references an existing queue. -/
theorem delete_queue_contract :
    (∀ (db : DB) (name : String),
      ((delete_queue db name).1 = true ↔ ∃ q ∈ db.queues, q.name = name) ∧
      (delete_queue db name).2.queues =
        db.queues.filter (fun q => !(q.name == name)) ∧
      (delete_queue db name).2.messages =
        db.messages.filter (fun m =>
          !((db.queues.filter (fun q => q.name == name)).any
            (fun q => q.id == m.queue_id))) ∧
      (∀ m ∈ (delete_queue db name).2.messages,
        ∀ q ∈ db.queues, q.name = name → q.id ≠ m.queue_id)) ∧
    (∀ (db : DB) (op : Op), RefInt db → RefInt (applyOp db op)) := by
  constructor
  · intro db name
    refine ⟨?_, rfl, rfl, ?_⟩
    · show decide (0 < (db.queues.filter (fun q => q.name == name)).length) =
        true ↔ ∃ q ∈ db.queues, q.name = name
      simp only [decide_eq_true_eq]
      rw [List.length_pos_iff_exists_mem]
      constructor
      · rintro ⟨q, hq⟩
        rcases List.mem_filter.mp hq with ⟨hqm, hqn⟩
        exact ⟨q, hqm, by simpa using hqn⟩
      · rintro ⟨q, hqm, hqn⟩
        exact ⟨q, List.mem_filter.mpr ⟨hqm, by simpa using hqn⟩⟩
    · intro m hm q hq hqn heq
      have hcond := (List.mem_filter.mp hm).2
      rw [Bool.not_eq_true', List.any_eq_false] at hcond
      have hqrem : q ∈ db.queues.filter (fun q => q.name == name) :=
        List.mem_filter.mpr ⟨hq, by simp [hqn]⟩
      have := hcond q hqrem
      simp [heq] at this
  · exact refint_applyOp

/-- C8 witness: deleting queue `a` in `dbC8` reports true and the
resulting store — like every store reached by one operation from a
referentially intact one — keeps referential integrity. -/
theorem delete_queue_contract_witness :
    ((delete_queue dbC8 "a").1 = true ↔ ∃ q ∈ dbC8.queues, q.name = "a") ∧
      RefInt (applyOp dbC8 (Op.deleteQ "a")) :=
  ⟨(delete_queue_contract.1 dbC8 "a").1,
   delete_queue_contract.2 dbC8 (Op.deleteQ "a") (by decide)⟩

theorem nodup_append_fresh (l : List Int) (a : Int) (h : l.Nodup)
    (ha : a ∉ l) : (l ++ [a]).Nodup := by
  rw [List.nodup_append]
  refine ⟨h, List.nodup_singleton a, ?_⟩
  intro x hx hx'
  rcases List.mem_singleton.mp hx' with rfl
  exact ha hx

theorem engineInv_filter_msgs (db : DB) (p : Message → Bool)
    (hI : EngineInv db) :
    EngineInv { db with messages := db.messages.filter p } := by
  obtain ⟨hqnd, hmnd, hri, hnn, hai⟩ := hI
  refine ⟨hqnd, ?_, ?_, hnn, ?_⟩
  · exact List.Nodup.sublist ((List.filter_sublist _).map Message.id) hmnd
  · intro m hm
    exact hri m (List.mem_of_mem_filter hm)
  · intro m hm
    exact hai m (List.mem_of_mem_filter hm)

theorem engineInv_poll_msgs (db : DB) (ids : List Int) (v : Int)
    (hI : EngineInv db) :
    EngineInv { db with messages := db.messages.map (pollUpd ids v) } := by
  obtain ⟨hqnd, hmnd, hri, hnn, hai⟩ := hI
  refine ⟨hqnd, ?_, ?_, hnn, ?_⟩
  · show ((db.messages.map (pollUpd ids v)).map Message.id).Nodup
    rw [map_id_pollUpd]
    exact hmnd
  · intro m hm
    rcases List.mem_map.mp hm with ⟨m₀, hm₀, rfl⟩
    rw [pollUpd_queue_id]
    exact hri m₀ hm₀
  · intro m hm
    rcases List.mem_map.mp hm with ⟨m₀, hm₀, rfl⟩
    constructor
    · rw [pollUpd_attempts]
      exact (hai m₀ hm₀).1
    · intro q hq hqid
      rw [pollUpd_attempts]
      rw [pollUpd_queue_id] at hqid
      exact (hai m₀ hm₀).2 q hq hqid

theorem engineInv_nack_msgs (db : DB) (ids : List Int) (v : Int)
    (hI : EngineInv db) :
    EngineInv { db with
      messages := (db.messages.map (nackUpd ids v)).filter
        (fun m => !(nackDropCond db ids m)) } := by
  obtain ⟨hqnd, hmnd, hri, hnn, hai⟩ := hI
  refine ⟨hqnd, ?_, ?_, hnn, ?_⟩
  · show (((db.messages.map (nackUpd ids v)).filter
      (fun m => !(nackDropCond db ids m))).map Message.id).Nodup
    have h2 := (List.filter_sublist (l := db.messages.map (nackUpd ids v))
      (p := fun m => !(nackDropCond db ids m))).map Message.id
    rw [map_id_nackUpd] at h2
    exact List.Nodup.sublist h2 hmnd
  · intro m hm
    rcases List.mem_map.mp (List.mem_of_mem_filter hm) with ⟨m₀, hm₀, rfl⟩
    rw [nackUpd_queue_id]
    exact hri m₀ hm₀
  · intro m hm
    have hdrop := (List.mem_filter.mp hm).2
    rcases List.mem_map.mp (List.mem_of_mem_filter hm) with ⟨m₀, hm₀, rfl⟩
    by_cases hc : ids.contains m₀.id = true
    · have ha0 := (hai m₀ hm₀).1
      constructor
      · unfold nackUpd
        rw [if_pos hc]
        show 0 ≤ m₀.attempts + 1
        omega
      · intro q hq hqid
        rw [nackUpd_queue_id] at hqid
        rw [nackDropCond_upd] at hdrop
        have hfind : findQueueById db m₀.queue_id = some q := by
          have h := findQueueById_eq db q hqnd hq
          rw [hqid] at h
          exact h
        rw [hfind, hc] at hdrop
        simp only [Bool.true_and, Bool.not_eq_true',
          decide_eq_false_iff_not] at hdrop
        unfold nackUpd
        rw [if_pos hc]
        show m₀.attempts + 1 ≤ q.max_attempts
        omega
    · have heq : nackUpd ids v m₀ = m₀ := by
        unfold nackUpd
        rw [if_neg hc]
      rw [heq]
      exact hai m₀ hm₀

theorem engineInv_preserved (db : DB) (op : Op) (hg : goodOp op)
    (hI : EngineInv db) : EngineInv (applyOp db op) := by
  obtain ⟨hqnd, hmnd, hri, hnn, hai⟩ := hI
  cases op with
  | createQ n ma =>
    show EngineInv (match create_queue db n ma with
      | .ok r => r.2
      | .error _ => db)
    unfold create_queue
    cases hfind : get_queue_by_name db n with
    | some q => exact ⟨hqnd, hmnd, hri, hnn, hai⟩
    | none =>
      refine ⟨?_, hmnd, ?_, ?_, ?_⟩
      · show ((db.queues ++
          [Queue.mk (newRowId (db.queues.map Queue.id)) n ma]).map
            Queue.id).Nodup
        rw [List.map_append]
        exact nodup_append_fresh _ _ hqnd (newRowId_not_mem _)
      · intro m hm
        rcases hri m hm with ⟨q, hq, hid⟩
        exact ⟨q, List.mem_append_left _ hq, hid⟩
      · intro q hq
        rcases List.mem_append.mp hq with h | h
        · exact hnn q h
        · rcases List.mem_singleton.mp h with rfl
          exact hg
      · intro m hm
        refine ⟨(hai m hm).1, ?_⟩
        intro q hq hqid
        rcases List.mem_append.mp hq with h | h
        · exact (hai m hm).2 q h hqid
        · rcases List.mem_singleton.mp h with rfl
          exfalso
          rcases hri m hm with ⟨q₀, hq₀, hid₀⟩
          apply newRowId_not_mem (db.queues.map Queue.id)
          have hfr : newRowId (db.queues.map Queue.id) = m.queue_id := hqid
          rw [hfr, ← hid₀]
          exact List.mem_map_of_mem Queue.id hq₀
  | deleteQ n =>
    refine ⟨?_, ?_, refint_applyOp db (Op.deleteQ n) hri, ?_, ?_⟩
    · exact List.Nodup.sublist ((List.filter_sublist _).map Queue.id) hqnd
    · exact List.Nodup.sublist ((List.filter_sublist _).map Message.id) hmnd
    · intro q hq
      exact hnn q (List.mem_of_mem_filter hq)
    · intro m hm
      refine ⟨(hai m (List.mem_of_mem_filter hm)).1, ?_⟩
      intro q hq hqid
      exact (hai m (List.mem_of_mem_filter hm)).2 q
        (List.mem_of_mem_filter hq) hqid
  | enqueue qn p now d =>
    show EngineInv (match enqueue_message db qn p now d with
      | .ok r => r.2
      | .error _ => db)
    unfold enqueue_message
    cases hfind : get_queue_by_name db qn with
    | none => exact ⟨hqnd, hmnd, hri, hnn, hai⟩
    | some q =>
      obtain ⟨hqmem, hqname⟩ := get_queue_by_name_mem db qn q hfind
      refine ⟨hqnd, ?_, ?_, hnn, ?_⟩
      · show ((db.messages ++
          [Message.mk (newRowId (db.messages.map Message.id)) q.id p 0
            (now + max d 0) now]).map Message.id).Nodup
        rw [List.map_append]
        exact nodup_append_fresh _ _ hmnd (newRowId_not_mem _)
      · intro m hm
        rcases List.mem_append.mp hm with h | h
        · exact hri m h
        · rcases List.mem_singleton.mp h with rfl
          exact ⟨q, hqmem, rfl⟩
      · intro m hm
        rcases List.mem_append.mp hm with h | h
        · refine ⟨(hai m h).1, ?_⟩
          intro q' hq' hqid'
          exact (hai m h).2 q' hq' hqid'
        · rcases List.mem_singleton.mp h with rfl
          refine ⟨le_refl 0, ?_⟩
          intro q' hq' hqid'
          have hq'q : q' = q := List.inj_on_of_nodup_map hqnd hq' hqmem hqid'
          rw [hq'q]
          exact hnn q hqmem
  | poll qn now l v =>
    show EngineInv (poll_messages db qn now l v).2
    rw [poll_messages_eq]
    split
    · exact ⟨hqnd, hmnd, hri, hnn, hai⟩
    · exact engineInv_poll_msgs db _ _ ⟨hqnd, hmnd, hri, hnn, hai⟩
  | ack ids =>
    show EngineInv (ack_messages db ids).2
    rw [ack_messages_eq]
    exact engineInv_filter_msgs db _ ⟨hqnd, hmnd, hri, hnn, hai⟩
  | nack ids now d =>
    show EngineInv (nack_messages db ids now d).2
    rw [nack_messages_eq]
    split
    · exact ⟨hqnd, hmnd, hri, hnn, hai⟩
    · exact engineInv_nack_msgs db _ _ ⟨hqnd, hmnd, hri, hnn, hai⟩
  | peek qn l => exact ⟨hqnd, hmnd, hri, hnn, hai⟩
  | purge qn =>
    show EngineInv (purge_messages_by_queue db qn).2
    unfold purge_messages_by_queue
    cases hfind : get_queue_by_name db qn with
    | none => exact ⟨hqnd, hmnd, hri, hnn, hai⟩
    | some q => exact engineInv_filter_msgs db _ ⟨hqnd, hmnd, hri, hnn, hai⟩
  | removeMsg i =>
    exact engineInv_filter_msgs db _ ⟨hqnd, hmnd, hri, hnn, hai⟩

theorem engineInv_foldl (ops : List Op) :
    ∀ db : DB, (∀ op ∈ ops, goodOp op) → EngineInv db →
      EngineInv (ops.foldl applyOp db) := by
  induction ops with
  | nil =>
    intro db _ hdb
    exact hdb
  | cons op ops ih =>
    intro db hg hdb
    exact ih (applyOp db op) (fun o ho => hg o (List.mem_cons_of_mem op ho))
      (engineInv_preserved db op (hg op (List.mem_cons_self op ops)) hdb)

theorem attempts_le_of_same_list (db : DB) (hmnd : MsgIdsNodup db)
    (m m' : Message) (hm : m ∈ db.messages) (hm' : m' ∈ db.messages)
    (hid : m'.id = m.id) : m.attempts ≤ m'.attempts := by
  obtain rfl : m' = m := List.inj_on_of_nodup_map hmnd hm' hm hid
  exact le_refl _

theorem attempts_mono_applyOp (db : DB) (op : Op) (hmnd : MsgIdsNodup db) :
    ∀ m ∈ db.messages, ∀ m' ∈ (applyOp db op).messages,
      m'.id = m.id → m.attempts ≤ m'.attempts := by
  cases op with
  | createQ n ma =>
    intro m hm m' hm' hid
    rw [show applyOp db (Op.createQ n ma) =
        (match create_queue db n ma with
         | .ok r => r.2
         | .error _ => db) from rfl] at hm'
    unfold create_queue at hm'
    cases hfind : get_queue_by_name db n with
    | some q =>
      rw [hfind] at hm'
      exact attempts_le_of_same_list db hmnd m m' hm hm' hid
    | none =>
      rw [hfind] at hm'
      exact attempts_le_of_same_list db hmnd m m' hm hm' hid
  | deleteQ n =>
    intro m hm m' hm' hid
    exact attempts_le_of_same_list db hmnd m m' hm
      (List.mem_of_mem_filter hm') hid
  | enqueue qn p now d =>
    intro m hm m' hm' hid
    rw [show applyOp db (Op.enqueue qn p now d) =
        (match enqueue_message db qn p now d with
         | .ok r => r.2
         | .error _ => db) from rfl] at hm'
    unfold enqueue_message at hm'
    cases hfind : get_queue_by_name db qn with
    | none =>
      rw [hfind] at hm'
      exact attempts_le_of_same_list db hmnd m m' hm hm' hid
    | some q =>
      rw [hfind] at hm'
      rcases List.mem_append.mp hm' with h | h
      · exact attempts_le_of_same_list db hmnd m m' hm h hid
      · exfalso
        rcases List.mem_singleton.mp h with rfl
        apply newRowId_not_mem (db.messages.map Message.id)
        have hfr : newRowId (db.messages.map Message.id) = m.id := hid
        rw [hfr]
        exact List.mem_map_of_mem Message.id hm
  | poll qn now l v =>
    intro m hm m' hm' hid
    rw [show (applyOp db (Op.poll qn now l v)) =
        (poll_messages db qn now l v).2 from rfl, poll_messages_eq] at hm'
    rcases (em (((pollCandidates db qn now l).map Message.id).isEmpty =
        true)) with hemp | hemp
    · rw [if_pos hemp] at hm'
      exact attempts_le_of_same_list db hmnd m m' hm hm' hid
    · rw [if_neg hemp] at hm'
      rcases List.mem_map.mp hm' with ⟨m₁, hm₁, rfl⟩
      rw [pollUpd_id] at hid
      rw [pollUpd_attempts]
      exact attempts_le_of_same_list db hmnd m m₁ hm hm₁ hid
  | ack ids =>
    intro m hm m' hm' hid
    rw [show (applyOp db (Op.ack ids)) = (ack_messages db ids).2 from rfl,
      ack_messages_eq] at hm'
    exact attempts_le_of_same_list db hmnd m m' hm
      (List.mem_of_mem_filter hm') hid
  | nack ids now d =>
    intro m hm m' hm' hid
    rw [show (applyOp db (Op.nack ids now d)) =
        (nack_messages db ids now d).2 from rfl, nack_messages_eq] at hm'
    rcases (em (ids.isEmpty = true)) with hemp | hemp
    · rw [if_pos hemp] at hm'
      exact attempts_le_of_same_list db hmnd m m' hm hm' hid
    · rw [if_neg hemp] at hm'
      rcases List.mem_map.mp (List.mem_of_mem_filter hm') with ⟨m₁, hm₁, rfl⟩
      rw [nackUpd_id] at hid
      have h1 : m.attempts ≤ m₁.attempts :=
        attempts_le_of_same_list db hmnd m m₁ hm hm₁ hid
      unfold nackUpd
      split
      · show m.attempts ≤ m₁.attempts + 1
        omega
      · exact h1
  | peek qn l =>
    intro m hm m' hm' hid
    exact attempts_le_of_same_list db hmnd m m' hm hm' hid
  | purge qn =>
    intro m hm m' hm' hid
    rw [show applyOp db (Op.purge qn) =
        (purge_messages_by_queue db qn).2 from rfl] at hm'
    unfold purge_messages_by_queue at hm'
    cases hfind : get_queue_by_name db qn with
    | none =>
      rw [hfind] at hm'
      exact attempts_le_of_same_list db hmnd m m' hm hm' hid
    | some q =>
      rw [hfind] at hm'
      exact attempts_le_of_same_list db hmnd m m' hm
        (List.mem_of_mem_filter hm') hid
  | removeMsg i =>
    intro m hm m' hm' hid
    exact attempts_le_of_same_list db hmnd m m' hm
      (List.mem_of_mem_filter hm') hid

/-- C6 counterexample: `create_queue` accepts a negative
`max_attempts`, after which an enqueued message has `attempts = 0 >
max_attempts = -1` — the claimed invariant `attempts ≤ max_attempts`
fails at this reachable quiescent state. -/
theorem attempts_invariant_violated :
    (runOps [Op.createQ "q" (-1), Op.enqueue "q" "p" 100 0]).queues =
        [⟨1, "q", -1⟩] ∧
      (runOps [Op.createQ "q" (-1), Op.enqueue "q" "p" 100 0]).messages =
        [⟨1, 1, "p", 0, 100, 100⟩] ∧
      ¬ AttemptsInv (runOps [Op.createQ "q" (-1), Op.enqueue "q" "p" 100 0]) := by
  decide

/-- C6 (amended): along every operation sequence from the empty store
in which each create_queue has a non-negative max_attempts, every
message at every quiescent point satisfies `0 ≤ attempts` and
`attempts ≤ its queue's max_attempts` (a nack that would reach the
limit deletes the message instead); and across any single operation on
a store with distinct message ids, a message that persists (same id
before and after) never sees its `attempts` decrease. Without the
non-negativity restriction the bound fails, since create_queue does
not validate `max_attempts ≥ 1`. -/
theorem attempts_invariant (ops : List Op) (hg : ∀ op ∈ ops, goodOp op) :
    AttemptsInv (runOps ops) ∧
    (∀ (db : DB) (op : Op), MsgIdsNodup db →
      ∀ m ∈ db.messages, ∀ m' ∈ (applyOp db op).messages,
        m'.id = m.id → m.attempts ≤ m'.attempts) :=
  ⟨(engineInv_foldl ops db0 hg (by decide)).2.2.2.2,
   fun db op hmnd => attempts_mono_applyOp db op hmnd⟩

/-- C6 amended-claim witness: the invariant holds after creating a
queue with limit 2 and enqueueing one message. -/
theorem attempts_invariant_witness :
    AttemptsInv (runOps [Op.createQ "q" 2, Op.enqueue "q" "p" 100 0]) :=
  (attempts_invariant [Op.createQ "q" 2, Op.enqueue "q" "p" 100 0]
    (by decide)).1
